import Mathlib

/-!
# Verification of the grid-MDP value-iteration solver (`app.py`)

Shallow embedding of the `/train` endpoint of `app.py`: a deterministic
grid MDP is solved by value iteration, a greedy policy and Q-values are
extracted, and a path from start to goal is reconstructed by following
the policy.

Modelling conventions:
* Python `int` grid coordinates become `Int`; a cell is a pair `(row, col)`.
* Python `float` arithmetic is modelled exactly over `ℚ` (the program only
  ever combines the literals `0.0`, `-1.0`, `1.0`, `0.9`, `1e-3` by
  `+`, `*`, `abs`, `max` and comparisons).
* Python dicts keyed by cells (or indices) become association lists with a
  first-match lookup `dlookup`; a lookup of a missing key (Python
  `KeyError`) is `none`, and the whole computation is threaded through
  `Option`, so `train ... = none` models the endpoint dying with an
  uncaught `KeyError`.
* The `float('-inf')` sentinel that seeds the running maximum is modelled
  by an `Option` accumulator (`none` = `-inf`); since every candidate value
  is a finite rational, the first candidate always replaces the sentinel,
  exactly as in the source.
* The unbounded `while True:` path walk is modelled with explicit fuel
  `(validStates p).length + 2`; `walkLoop_no_fuelOut` proves this fuel is
  never exhausted, so the fuelled function agrees with the source loop.
-/

namespace GridMDP

abbrev Cell := Int × Int

/-- The four actions, in the fixed source order `['U', 'D', 'L', 'R']`. -/
inductive Action where
  | U | D | L | R
deriving DecidableEq, Repr, Fintype

/-- Source list `actions = ['U', 'D', 'L', 'R']` (app.py line 29). -/
def actionsList : List Action := [.U, .D, .L, .R]

/-- Discount factor `gamma = 0.9` (app.py line 30). -/
def gamma : ℚ := 9 / 10

/-- Convergence threshold `1e-3` (app.py line 73). -/
def threshold : ℚ := 1 / 1000

/-- Source constant `max_iterations = 1000` (app.py line 74). -/
def maxIterations : Nat := 1000

/-- The input of one solve request: grid side length, start, goal, obstacles. -/
structure Params where
  gridSize : Int
  startPos : Cell
  goalPos : Cell
  obstacles : List Cell
deriving DecidableEq, Repr

/-- Python `range(n)` as a list of `Int` (empty when `n ≤ 0`). -/
def intRange (n : Int) : List Int := (List.range n.toNat).map fun m : Nat => (m : Int)

/-- Source list `valid_states`: row-major enumeration of all in-bounds non-obstacle
cells (app.py lines 36-40). -/
def validStates (p : Params) : List Cell :=
  (intRange p.gridSize).flatMap fun r =>
    ((intRange p.gridSize).filter fun c => decide ((r, c) ∉ p.obstacles)).map fun c => (r, c)

/-- Predicate `is_valid(r, c)` (app.py lines 43-44); the identical closure
`valid_for_path` (lines 151-152) is modelled by this same function. -/
def is_valid (p : Params) (r c : Int) : Bool :=
  decide (0 ≤ r) && decide (r < p.gridSize) && decide (0 ≤ c) && decide (c < p.gridSize) &&
    decide ((r, c) ∉ p.obstacles)

/-- The unit offset each action applies to `(row, col)`
(app.py lines 52-55, repeated verbatim at lines 171-174). -/
def move (s : Cell) (a : Action) : Cell :=
  match a with
  | .U => (s.1 - 1, s.2)
  | .D => (s.1 + 1, s.2)
  | .L => (s.1, s.2 - 1)
  | .R => (s.1, s.2 + 1)

/-- Transition `step(state, action) -> (nextState, reward)` (app.py lines 47-64). -/
def step (p : Params) (s : Cell) (a : Action) : Cell × ℚ :=
  if s = p.goalPos then (s, 0)
  else
    let n := move s a
    if ¬ is_valid p n.1 n.2 then (s, -1)
    else if n = p.goalPos then (n, 1)
    else (n, 0)

/-- First-match association-list lookup: Python `d[key]` returning `none`
for a `KeyError`. -/
def dlookup {α β : Type} [DecidableEq α] : List (α × β) → α → Option β
  | [], _ => none
  | (k, v) :: rest, key => if key = k then some v else dlookup rest key

/-- The keys of an association list, in insertion order. -/
def dkeys {α β : Type} (l : List (α × β)) : List α := l.map Prod.fst

/-- A value function: the dict `V` mapping cells to values. -/
abbrev VMap := List (Cell × ℚ)

/-- Initial value function: `V[s] = 0.0` for every valid state
(app.py lines 67-69). -/
def V0 (p : Params) : VMap := (validStates p).map fun s => (s, (0 : ℚ))

/-- One candidate value `reward + gamma * V[nxt]` for one action
(app.py lines 88-89 and 116-117); `none` when `V[nxt]` is missing. -/
def qCand (p : Params) (V : VMap) (s : Cell) (a : Action) : Option ℚ :=
  match step p s a with
  | (nxt, reward) => (dlookup V nxt).map fun v => reward + gamma * v

/-- The list of `(action, candidate value)` pairs in action order, `none` if
any lookup fails. -/
def candList (p : Params) (V : VMap) (s : Cell) : List Action → Option (List (Action × ℚ))
  | [] => some []
  | a :: rest =>
    match qCand p V s a, candList p V s rest with
    | some q, some cs => some ((a, q) :: cs)
    | _, _ => none

/-- All four action candidates of a state. -/
def actionCandidates (p : Params) (V : VMap) (s : Cell) : Option (List (Action × ℚ)) :=
  candList p V s actionsList

/-- One comparison of the running maximum of app.py lines 90-91: the
`float('-inf')` seed is `none`, and a candidate replaces the best only when
strictly greater. -/
def bestQStep (acc : Option ℚ) (av : Action × ℚ) : Option ℚ :=
  match acc with
  | none => some av.2
  | some b => if av.2 > b then some av.2 else some b

/-- The running maximum of app.py lines 86-91. -/
def runBestQ (l : List (Action × ℚ)) : Option ℚ :=
  l.foldl bestQStep none

/-- One comparison of the running `(best_a, best_value)` pair of app.py
lines 118-120: seeded with `(None, -inf)`, replaced only on a strictly
greater value. -/
def bestPairStep (acc : Option (Action × ℚ)) (av : Action × ℚ) : Option (Action × ℚ) :=
  match acc with
  | none => some av
  | some b => if av.2 > b.2 then some av else some b

/-- The running `(best_a, best_value)` pair of app.py lines 112-120. -/
def runBestPair (l : List (Action × ℚ)) : Option (Action × ℚ) :=
  l.foldl bestPairStep none

/-- Value `best_action_value` of a non-goal state (app.py lines 86-91). -/
def bellmanBest (p : Params) (V : VMap) (s : Cell) : Option ℚ :=
  (actionCandidates p V s).bind runBestQ

/-- Pair `(best_a, best_value)` of a non-goal state (app.py lines 112-120). -/
def bestPair (p : Params) (V : VMap) (s : Cell) : Option (Action × ℚ) :=
  (actionCandidates p V s).bind runBestPair

/-- One synchronous sweep over the listed states (the body of app.py lines
77-95): builds `new_V` in state order and the running `delta`.  All value
lookups read the snapshot `V`. -/
def sweepAux (p : Params) (V : VMap) : List Cell → Option (VMap × ℚ)
  | [] => some ([], 0)
  | s :: rest =>
    if s = p.goalPos then
      (sweepAux p V rest).map fun nd => ((s, (0 : ℚ)) :: nd.1, nd.2)
    else
      match bellmanBest p V s, dlookup V s, sweepAux p V rest with
      | some bv, some old, some (nv, d) => some ((s, bv) :: nv, max (|bv - old|) d)
      | _, _, _ => none

/-- One full value-iteration sweep over `valid_states`. -/
def sweep (p : Params) (V : VMap) : Option (VMap × ℚ) :=
  sweepAux p V (validStates p)

/-- The value-iteration loop (app.py lines 76-100): at most `fuel` sweeps,
stopping early as soon as `delta < threshold`; when the fuel (the
`range(max_iterations)` budget) runs out the last computed `V` is returned
with no error. -/
def viLoop (p : Params) : Nat → VMap → Option VMap
  | 0, V => some V
  | n + 1, V =>
    match sweep p V with
    | none => none
    | some (newV, delta) => if delta < threshold then some newV else viLoop p n newV

/-- Policy / Q-value extraction over the listed states (app.py lines
104-123): goal gets `qValues[goal] = 0` and no policy entry; every other
state gets the best action and its value. -/
def extractAux (p : Params) (V : VMap) :
    List Cell → Option (List (Cell × Action) × List (Cell × ℚ))
  | [] => some ([], [])
  | s :: rest =>
    if s = p.goalPos then
      (extractAux p V rest).map fun pq => (pq.1, (s, (0 : ℚ)) :: pq.2)
    else
      match bestPair p V s, extractAux p V rest with
      | some (a, v), some (pol, qv) => some ((s, a) :: pol, (s, v) :: qv)
      | _, _ => none

/-- Policy / Q-value extraction over `valid_states`. -/
def extract (p : Params) (V : VMap) : Option (List (Cell × Action) × List (Cell × ℚ)) :=
  extractAux p V (validStates p)

/-- Index dict `idx_map` (app.py lines 126-131): the dict built row-major over the
grid assigns `(r, c) ↦ r * gridSize + c + 1`; any other key is a
`KeyError`. -/
def idxMap (gs : Int) (s : Cell) : Option Int :=
  if 0 ≤ s.1 ∧ s.1 < gs ∧ 0 ≤ s.2 ∧ s.2 < gs then some (s.1 * gs + s.2 + 1) else none

/-- Re-keying of policy and qValues by cell index (app.py lines 134-143). -/
def toIdxAux (p : Params) (pol : List (Cell × Action)) (qv : List (Cell × ℚ)) :
    List Cell → Option (List (Int × Action) × List (Int × ℚ))
  | [] => some ([], [])
  | s :: rest =>
    match idxMap p.gridSize s, toIdxAux p pol qv rest with
    | some si, some (polI, qvI) =>
      if s = p.goalPos then some (polI, (si, (0 : ℚ)) :: qvI)
      else
        match dlookup pol s, dlookup qv s with
        | some a, some q => some ((si, a) :: polI, (si, q) :: qvI)
        | _, _ => none
    | _, _ => none

/-- Re-keying over `valid_states`. -/
def toIdx (p : Params) (pol : List (Cell × Action)) (qv : List (Cell × ℚ)) :
    Option (List (Int × Action) × List (Int × ℚ)) :=
  toIdxAux p pol qv (validStates p)

/-- Outcome of the path-walk loop: a `KeyError`, fuel exhaustion (never
happens with the fuel chosen in `train`, see `walkLoop_no_fuelOut`), or a
normal break with the accumulated path and reachability flag. -/
inductive WalkRes where
  | keyErr
  | fuelOut
  | done (path : List Int) (reachable : Bool)
deriving DecidableEq, Repr

/-- The greedy policy walk (app.py lines 146-178).  Each iteration appends
`idx_map[current]` to the path, then breaks on reaching the goal, on
revisiting a cell, on a missing policy entry, or on an invalid move. -/
def walkLoop (p : Params) (polI : List (Int × Action)) :
    Nat → List Int → List Cell → Cell → WalkRes
  | 0, _, _, _ => .fuelOut
  | fuel + 1, path, visited, current =>
    match idxMap p.gridSize current with
    | none => .keyErr
    | some ci =>
      let path' := path ++ [ci]
      if current = p.goalPos then .done path' true
      else if current ∈ visited then .done path' false
      else
        let visited' := current :: visited
        match dlookup polI ci with
        | none => .done path' false
        | some a =>
          match move current a with
          | (r, c) =>
            if ¬ is_valid p r c then .done path' false
            else walkLoop p polI fuel path' visited' (r, c)

/-- The response bundle (app.py lines 183-188). -/
structure TrainResult where
  policy : List (Int × Action)
  qValues : List (Int × ℚ)
  path : List Int
  reachable : Bool
deriving DecidableEq, Repr

/-- The whole solver `train` (app.py lines 10-189), with a `KeyError`
anywhere modelled as `none`. -/
def train (gridSize : Int) (startPos goalPos : Cell) (obstacles : List Cell) :
    Option TrainResult :=
  let p : Params := ⟨gridSize, startPos, goalPos, obstacles⟩
  match viLoop p maxIterations (V0 p) with
  | none => none
  | some Vf =>
    match extract p Vf with
    | none => none
    | some (pol, qv) =>
      match toIdx p pol qv with
      | none => none
      | some (polI, qvI) =>
        match walkLoop p polI ((validStates p).length + 2) [] [] startPos with
        | .keyErr => none
        | .fuelOut => none
        | .done path reachable => some ⟨polI, qvI, path, reachable⟩

/-- The module-level `import random` (app.py line 2) puts a pseudo-random
generator in scope, but `train` never consults it: modelled by passing the
generator state through explicitly and ignoring it, mirroring the unused
import. -/
def trainWithRandom (_randomState : Nat) (gridSize : Int) (startPos goalPos : Cell)
    (obstacles : List Cell) : Option TrainResult :=
  train gridSize startPos goalPos obstacles

/-- Position of an action in the fixed iteration order `{U, D, L, R}`. -/
def actionIdx : Action → Nat
  | .U => 0
  | .D => 1
  | .L => 2
  | .R => 3

/-- Maximum over the non-goal states of a list of `|newV(s) - V(s)|`, the
quantity the loop accumulates into `delta` (the goal state is skipped by the
`continue` at app.py line 83). -/
def deltaOf (p : Params) (V newV : VMap) : List Cell → ℚ
  | [] => 0
  | s :: rest =>
    if s = p.goalPos then deltaOf p V newV rest
    else max (|(dlookup newV s).getD 0 - (dlookup V s).getD 0|) (deltaOf p V newV rest)

/-- Maximum of `|newV(s) - V(s)|` over all listed states, goal included:
the spec's reading of `delta`. -/
def deltaOfAll (V newV : VMap) : List Cell → ℚ
  | [] => 0
  | s :: rest =>
    max (|(dlookup newV s).getD 0 - (dlookup V s).getD 0|) (deltaOfAll V newV rest)

/-- Decode a 1-based row-major cell index back to a cell. -/
def cellOfIdx (gs : Int) (i : Int) : Cell := ((i - 1) / gs, (i - 1) % gs)

/-- Manhattan distance between two cells. -/
def manhattan (a b : Cell) : Int := |a.1 - b.1| + |a.2 - b.2|

/-- One path step that is a Down or Right unit move and strictly decreases
the Manhattan distance to the goal (stated on 1-based indices). -/
def drStepB (gs : Int) (goal : Cell) (i j : Int) : Bool :=
  (decide (cellOfIdx gs j = ((cellOfIdx gs i).1 + 1, (cellOfIdx gs i).2)) ||
    decide (cellOfIdx gs j = ((cellOfIdx gs i).1, (cellOfIdx gs i).2 + 1))) &&
  decide (manhattan (cellOfIdx gs j) goal < manhattan (cellOfIdx gs i) goal)

/-- Check that every consecutive pair of a path satisfies `drStepB`. -/
def drChain (gs : Int) (goal : Cell) : List Int → Bool
  | [] => true
  | [_] => true
  | i :: j :: rest => drStepB gs goal i j && drChain gs goal (j :: rest)

/-! ## Basic lemmas about lookups and the state space -/

theorem dlookup_isSome_iff {α β : Type} [DecidableEq α] (l : List (α × β)) (k : α) :
    (dlookup l k).isSome = true ↔ k ∈ dkeys l := by
  induction l with
  | nil => simp [dlookup, dkeys]
  | cons kv rest ih =>
    rcases kv with ⟨k', v⟩
    by_cases h : k = k'
    · simp [dlookup, dkeys, h]
    · simpa [dlookup, dkeys, h] using ih

theorem dlookup_eq_none_iff {α β : Type} [DecidableEq α] (l : List (α × β)) (k : α) :
    dlookup l k = none ↔ k ∉ dkeys l := by
  rw [← Option.not_isSome_iff_eq_none]
  exact not_congr (dlookup_isSome_iff l k)

theorem mem_intRange {n i : Int} : i ∈ intRange n ↔ 0 ≤ i ∧ i < n := by
  simp only [intRange, List.mem_map, List.mem_range]
  constructor
  · rintro ⟨m, hm, rfl⟩
    omega
  · rintro ⟨h0, h1⟩
    exact ⟨i.toNat, by omega, by omega⟩

theorem mem_validStates {p : Params} {s : Cell} :
    s ∈ validStates p ↔
      0 ≤ s.1 ∧ s.1 < p.gridSize ∧ 0 ≤ s.2 ∧ s.2 < p.gridSize ∧ s ∉ p.obstacles := by
  obtain ⟨r, c⟩ := s
  simp only [validStates, List.mem_flatMap, List.mem_map, List.mem_filter, mem_intRange,
    decide_eq_true_eq, Prod.mk.injEq]
  constructor
  · rintro ⟨r', hr', c', ⟨hc', hobs⟩, rfl, rfl⟩
    exact ⟨hr'.1, hr'.2, hc'.1, hc'.2, hobs⟩
  · rintro ⟨h1, h2, h3, h4, h5⟩
    exact ⟨r, ⟨h1, h2⟩, c, ⟨⟨h3, h4⟩, h5⟩, rfl, rfl⟩

theorem is_valid_iff {p : Params} {r c : Int} :
    is_valid p r c = true ↔
      0 ≤ r ∧ r < p.gridSize ∧ 0 ≤ c ∧ c < p.gridSize ∧ (r, c) ∉ p.obstacles := by
  simp [is_valid, and_assoc]

theorem mem_validStates_iff_is_valid {p : Params} {s : Cell} :
    s ∈ validStates p ↔ is_valid p s.1 s.2 = true := by
  obtain ⟨r, c⟩ := s
  rw [mem_validStates, is_valid_iff]

theorem nodup_intRange (n : Int) : (intRange n).Nodup :=
  List.Nodup.map Nat.cast_injective (List.nodup_range _)

theorem nodup_validStates (p : Params) : (validStates p).Nodup := by
  apply List.nodup_flatMap.2
  constructor
  · intro r _
    refine ((nodup_intRange _).filter _).map fun a b h => ?_
    simpa using h
  · refine (nodup_intRange _).imp ?_
    intro r1 r2 hne x hx1 hx2
    simp only [Function.onFun, List.mem_map, List.mem_filter] at hx1 hx2
    obtain ⟨c1, _, rfl⟩ := hx1
    obtain ⟨c2, _, h⟩ := hx2
    injection h with h1 _
    exact hne h1.symm

/-! ## Closure of `step` over the valid states -/

theorem step_fst_mem {p : Params} {s : Cell} (hs : s ∈ validStates p)
    (hg : s ≠ p.goalPos) (a : Action) : (step p s a).1 ∈ validStates p := by
  simp only [step, if_neg hg]
  by_cases hv : is_valid p (move s a).1 (move s a).2
  · rw [if_neg (not_not_intro hv)]
    split_ifs with h2 <;> exact mem_validStates_iff_is_valid.2 hv
  · rw [if_pos hv]
    exact hs

/-- C1: the `step` function satisfies the §4.2 contract: at the goal it
returns `(goal, 0)` regardless of the action; otherwise it applies the
action's unit offset, returning `(state, -1)` when the offset cell is out
of bounds or an obstacle, `(goal, +1)` when it is the (valid) goal cell,
and `(neighbor, 0)` otherwise. -/
theorem c1_step_contract (p : Params) (s : Cell) (a : Action) :
    (s = p.goalPos → step p s a = (p.goalPos, 0)) ∧
    (s ≠ p.goalPos →
      (((move s a).1 < 0 ∨ p.gridSize ≤ (move s a).1 ∨ (move s a).2 < 0 ∨
          p.gridSize ≤ (move s a).2 ∨ move s a ∈ p.obstacles) →
        step p s a = (s, -1)) ∧
      ((0 ≤ (move s a).1 ∧ (move s a).1 < p.gridSize ∧ 0 ≤ (move s a).2 ∧
          (move s a).2 < p.gridSize ∧ move s a ∉ p.obstacles) →
        (move s a = p.goalPos → step p s a = (p.goalPos, 1)) ∧
        (move s a ≠ p.goalPos → step p s a = (move s a, 0)))) := by
  have hbadv : ((move s a).1 < 0 ∨ p.gridSize ≤ (move s a).1 ∨ (move s a).2 < 0 ∨
      p.gridSize ≤ (move s a).2 ∨ move s a ∈ p.obstacles) →
      ¬ is_valid p (move s a).1 (move s a).2 = true := by
    intro hbad hv
    rw [is_valid_iff] at hv
    obtain ⟨v1, v2, v3, v4, v5⟩ := hv
    rcases hbad with h | h | h | h | h
    · omega
    · omega
    · omega
    · omega
    · exact v5 (by simpa using h)
  have hokv : (0 ≤ (move s a).1 ∧ (move s a).1 < p.gridSize ∧ 0 ≤ (move s a).2 ∧
      (move s a).2 < p.gridSize ∧ move s a ∉ p.obstacles) →
      is_valid p (move s a).1 (move s a).2 = true := by
    intro hok
    exact is_valid_iff.2 (by simpa using hok)
  refine ⟨fun h => by simp [step, h], fun hne => ⟨fun hbad => ?_, fun hok => ⟨?_, ?_⟩⟩⟩
  · simp only [step, if_neg hne]
    rw [if_pos (hbadv hbad)]
  · intro hgoal
    simp only [step, if_neg hne]
    rw [if_neg (not_not_intro (hokv hok)), if_pos hgoal, hgoal]
  · intro hgoal
    simp only [step, if_neg hne]
    rw [if_neg (not_not_intro (hokv hok)), if_neg hgoal]

/-- Witness for C1 on a concrete 2×2 grid with one obstacle: the goal is
absorbing, a wall bump, an obstacle bump, a goal arrival and a plain move
all evaluate as the contract states. -/
theorem c1_step_contract_witness :
    step ⟨2, (0, 0), (1, 1), [(1, 0)]⟩ (1, 1) .U = ((1, 1), 0) ∧
    step ⟨2, (0, 0), (1, 1), [(1, 0)]⟩ (0, 0) .U = ((0, 0), -1) ∧
    step ⟨2, (0, 0), (1, 1), [(1, 0)]⟩ (0, 0) .D = ((0, 0), -1) ∧
    step ⟨2, (0, 0), (1, 1), [(1, 0)]⟩ (0, 1) .D = ((1, 1), 1) ∧
    step ⟨2, (0, 0), (1, 1), [(1, 0)]⟩ (0, 0) .R = ((0, 1), 0) :=
  ⟨(c1_step_contract _ (1, 1) .U).1 (by decide),
   ((c1_step_contract _ (0, 0) .U).2 (by decide)).1 (by decide),
   ((c1_step_contract _ (0, 0) .D).2 (by decide)).1 (by decide),
   (((c1_step_contract _ (0, 1) .D).2 (by decide)).2 (by decide)).1 (by decide),
   (((c1_step_contract _ (0, 0) .R).2 (by decide)).2 (by decide)).2 (by decide)⟩

/-! ## The running-maximum folds -/

theorem bestQStep_eq (acc : Option (Action × ℚ)) (av : Action × ℚ) :
    bestQStep (acc.map Prod.snd) av = (bestPairStep acc av).map Prod.snd := by
  cases acc with
  | none => rfl
  | some b =>
    dsimp [bestQStep, bestPairStep]
    split_ifs <;> rfl

theorem foldl_bestQStep_eq (l : List (Action × ℚ)) (acc : Option (Action × ℚ)) :
    l.foldl bestQStep (acc.map Prod.snd) = (l.foldl bestPairStep acc).map Prod.snd := by
  induction l generalizing acc with
  | nil => rfl
  | cons c cs ih =>
    rw [List.foldl_cons, List.foldl_cons, bestQStep_eq]
    exact ih _

theorem runBestQ_eq_map (l : List (Action × ℚ)) :
    runBestQ l = (runBestPair l).map Prod.snd :=
  foldl_bestQStep_eq l none

theorem runBestPair_four (q : Action → ℚ) :
    ∃ a : Action,
      runBestPair [(.U, q .U), (.D, q .D), (.L, q .L), (.R, q .R)] = some (a, q a) ∧
      (∀ b, q b ≤ q a) ∧ ∀ b, actionIdx b < actionIdx a → q b < q a := by
  by_cases h1 : q .D > q .U
  · by_cases h2 : q .L > q .D
    · by_cases h3 : q .R > q .L
      · refine ⟨.R, by simp [runBestPair, bestPairStep, h1, h2, h3], ?_, ?_⟩
        · intro b; cases b <;> linarith
        · intro b hb
          cases b <;> first | linarith | exact absurd hb (by decide)
      · refine ⟨.L, by simp [runBestPair, bestPairStep, h1, h2, h3], ?_, ?_⟩
        · intro b; cases b <;> linarith
        · intro b hb
          cases b <;> first | linarith | exact absurd hb (by decide)
    · by_cases h3 : q .R > q .D
      · refine ⟨.R, by simp [runBestPair, bestPairStep, h1, h2, h3], ?_, ?_⟩
        · intro b; cases b <;> linarith
        · intro b hb
          cases b <;> first | linarith | exact absurd hb (by decide)
      · refine ⟨.D, by simp [runBestPair, bestPairStep, h1, h2, h3], ?_, ?_⟩
        · intro b; cases b <;> linarith
        · intro b hb
          cases b <;> first | linarith | exact absurd hb (by decide)
  · by_cases h2 : q .L > q .U
    · by_cases h3 : q .R > q .L
      · refine ⟨.R, by simp [runBestPair, bestPairStep, h1, h2, h3], ?_, ?_⟩
        · intro b; cases b <;> linarith
        · intro b hb
          cases b <;> first | linarith | exact absurd hb (by decide)
      · refine ⟨.L, by simp [runBestPair, bestPairStep, h1, h2, h3], ?_, ?_⟩
        · intro b; cases b <;> linarith
        · intro b hb
          cases b <;> first | linarith | exact absurd hb (by decide)
    · by_cases h3 : q .R > q .U
      · refine ⟨.R, by simp [runBestPair, bestPairStep, h1, h2, h3], ?_, ?_⟩
        · intro b; cases b <;> linarith
        · intro b hb
          cases b <;> first | linarith | exact absurd hb (by decide)
      · refine ⟨.U, by simp [runBestPair, bestPairStep, h1, h2, h3], ?_, ?_⟩
        · intro b; cases b <;> linarith
        · intro b hb
          cases b <;> first | linarith | exact absurd hb (by decide)

/-! ## Candidate lists -/

theorem candList_eq_map {p : Params} {V : VMap} {s : Cell} (q : Action → ℚ)
    {la : List Action} (h : ∀ a ∈ la, qCand p V s a = some (q a)) :
    candList p V s la = some (la.map fun a => (a, q a)) := by
  induction la with
  | nil => rfl
  | cons a rest ih =>
    have ha := h a (List.mem_cons_self ..)
    have hrest := ih fun b hb => h b (List.mem_cons_of_mem _ hb)
    simp [candList, ha, hrest]

theorem qCand_isSome {p : Params} {V : VMap} {s : Cell}
    (hk : dkeys V = validStates p) (hs : s ∈ validStates p) (hg : s ≠ p.goalPos)
    (a : Action) : (qCand p V s a).isSome = true := by
  rcases hstep : step p s a with ⟨nxt, rwd⟩
  have hnxt : nxt ∈ validStates p := by
    have := step_fst_mem hs hg a
    rwa [hstep] at this
  have : (dlookup V nxt).isSome = true := by
    rw [dlookup_isSome_iff, hk]
    exact hnxt
  simp only [qCand, hstep]
  rcases hd : dlookup V nxt with _ | v
  · rw [hd] at this
    cases this
  · rfl

theorem bellmanBest_isSome {p : Params} {V : VMap} {s : Cell}
    (hk : dkeys V = validStates p) (hs : s ∈ validStates p) (hg : s ≠ p.goalPos) :
    (bellmanBest p V s).isSome = true ∧ (bestPair p V s).isSome = true := by
  set q : Action → ℚ := fun a => (qCand p V s a).get (qCand_isSome hk hs hg a) with hq
  have hall : ∀ a ∈ actionsList, qCand p V s a = some (q a) := fun a _ =>
    (Option.some_get (qCand_isSome hk hs hg a)).symm
  have hc : actionCandidates p V s =
      some (actionsList.map fun a => (a, q a)) := candList_eq_map q hall
  obtain ⟨a, hr, -, -⟩ := runBestPair_four q
  constructor
  · rw [bellmanBest, hc]
    show (runBestQ (actionsList.map fun a => (a, q a))).isSome = true
    rw [runBestQ_eq_map]
    simp only [actionsList, List.map_cons, List.map_nil] at hr ⊢
    rw [hr]
    rfl
  · rw [bestPair, hc]
    show (runBestPair (actionsList.map fun a => (a, q a))).isSome = true
    simp only [actionsList, List.map_cons, List.map_nil] at hr ⊢
    rw [hr]
    rfl

/-! ## One sweep of value iteration -/

theorem sweepAux_some {p : Params} {V : VMap} (hk : dkeys V = validStates p) :
    ∀ {l : List Cell}, (∀ s ∈ l, s ∈ validStates p) →
      ∃ nv d, sweepAux p V l = some (nv, d) ∧ dkeys nv = l := by
  intro l
  induction l with
  | nil => exact fun _ => ⟨[], 0, rfl, rfl⟩
  | cons c rest ih =>
    intro hall
    obtain ⟨nv, d, hsw, hkeys⟩ := ih fun s hs => hall s (List.mem_cons_of_mem _ hs)
    by_cases hc : c = p.goalPos
    · refine ⟨(c, 0) :: nv, d, ?_, ?_⟩
      · simp [sweepAux, hc, hsw]
      · simp [dkeys] at hkeys ⊢
        exact hkeys
    · have hcv := hall c (List.mem_cons_self ..)
      obtain ⟨hb, -⟩ := bellmanBest_isSome hk hcv hc
      obtain ⟨bv, hbv⟩ := Option.isSome_iff_exists.1 hb
      have hold : (dlookup V c).isSome = true := by
        rw [dlookup_isSome_iff, hk]
        exact hcv
      obtain ⟨old, holdv⟩ := Option.isSome_iff_exists.1 hold
      refine ⟨(c, bv) :: nv, max (|bv - old|) d, ?_, ?_⟩
      · simp only [sweepAux, if_neg hc, hbv, holdv, hsw]
      · simp [dkeys] at hkeys ⊢
        exact hkeys

theorem sweepAux_inv {p : Params} {V : VMap} {c : Cell} {rest : List Cell}
    {nv : VMap} {d : ℚ} (hsw : sweepAux p V (c :: rest) = some (nv, d)) :
    (c = p.goalPos →
      ∃ nv' d', sweepAux p V rest = some (nv', d') ∧ nv = (c, 0) :: nv' ∧ d = d') ∧
    (c ≠ p.goalPos →
      ∃ bv old nv' d', bellmanBest p V c = some bv ∧ dlookup V c = some old ∧
        sweepAux p V rest = some (nv', d') ∧ nv = (c, bv) :: nv' ∧
        d = max (|bv - old|) d') := by
  constructor
  · intro hc
    rw [sweepAux, if_pos hc] at hsw
    rcases hr : sweepAux p V rest with _ | ⟨nv', d'⟩
    · rw [hr] at hsw
      cases hsw
    · rw [hr] at hsw
      injection hsw with h
      exact ⟨nv', d', rfl, congrArg Prod.fst h.symm, congrArg Prod.snd h.symm⟩
  · intro hc
    rw [sweepAux, if_neg hc] at hsw
    rcases hb : bellmanBest p V c with _ | bv <;> rw [hb] at hsw
    · cases hsw
    rcases ho : dlookup V c with _ | old <;> rw [ho] at hsw
    · cases hsw
    rcases hr : sweepAux p V rest with _ | ⟨nv', d'⟩ <;> rw [hr] at hsw
    · cases hsw
    injection hsw with h
    exact ⟨bv, old, nv', d', rfl, rfl, rfl,
      congrArg Prod.fst h.symm, congrArg Prod.snd h.symm⟩

theorem sweepAux_lookup {p : Params} {V : VMap} :
    ∀ {l : List Cell} {nv : VMap} {d : ℚ}, l.Nodup →
      sweepAux p V l = some (nv, d) →
      ∀ s ∈ l, dlookup nv s = if s = p.goalPos then some 0 else bellmanBest p V s := by
  intro l
  induction l with
  | nil => intro nv d _ _ s hs; cases hs
  | cons c rest ih =>
    intro nv d hnd hsw s hs
    have hndr := (List.nodup_cons.1 hnd).2
    have hcr := (List.nodup_cons.1 hnd).1
    by_cases hc : c = p.goalPos
    · obtain ⟨nv', d', hr, rfl, rfl⟩ := (sweepAux_inv hsw).1 hc
      rcases List.mem_cons.1 hs with rfl | hs'
      · rw [dlookup, if_pos rfl, if_pos hc]
      · have hsc : s ≠ c := fun h => hcr (h ▸ hs')
        rw [dlookup, if_neg hsc]
        exact ih hndr hr s hs'
    · obtain ⟨bv, old, nv', d', hb, ho, hr, rfl, rfl⟩ := (sweepAux_inv hsw).2 hc
      rcases List.mem_cons.1 hs with rfl | hs'
      · rw [dlookup, if_pos rfl, if_neg hc, hb]
      · have hsc : s ≠ c := fun h => hcr (h ▸ hs')
        rw [dlookup, if_neg hsc]
        exact ih hndr hr s hs'

theorem deltaOf_congr {p : Params} {V : VMap} {nv1 nv2 : VMap} :
    ∀ {l : List Cell}, (∀ s ∈ l, dlookup nv1 s = dlookup nv2 s) →
      deltaOf p V nv1 l = deltaOf p V nv2 l := by
  intro l
  induction l with
  | nil => intro _; rfl
  | cons c rest ih =>
    intro h
    have hrest := ih fun s hs => h s (List.mem_cons_of_mem _ hs)
    by_cases hc : c = p.goalPos
    · rw [deltaOf, deltaOf, if_pos hc, if_pos hc, hrest]
    · rw [deltaOf, deltaOf, if_neg hc, if_neg hc, hrest, h c (List.mem_cons_self ..)]

theorem sweepAux_delta {p : Params} {V : VMap} :
    ∀ {l : List Cell} {nv : VMap} {d : ℚ}, l.Nodup →
      sweepAux p V l = some (nv, d) → d = deltaOf p V nv l := by
  intro l
  induction l with
  | nil =>
    intro nv d _ hsw
    injection hsw with h
    injection h with h1 h2
    subst h1
    subst h2
    rfl
  | cons c rest ih =>
    intro nv d hnd hsw
    have hndr := (List.nodup_cons.1 hnd).2
    have hcr := (List.nodup_cons.1 hnd).1
    by_cases hc : c = p.goalPos
    · obtain ⟨nv', d', hr, rfl, rfl⟩ := (sweepAux_inv hsw).1 hc
      rw [deltaOf, if_pos hc]
      rw [ih hndr hr]
      apply deltaOf_congr
      intro s hs
      rw [dlookup, if_neg (fun h : s = c => hcr (h ▸ hs))]
    · obtain ⟨bv, old, nv', d', hb, ho, hr, rfl, rfl⟩ := (sweepAux_inv hsw).2 hc
      rw [deltaOf, if_neg hc, dlookup, if_pos rfl, ho]
      have : deltaOf p V ((c, bv) :: nv') rest = deltaOf p V nv' rest := by
        apply deltaOf_congr
        intro s hs
        rw [dlookup, if_neg (fun h : s = c => hcr (h ▸ hs))]
      rw [this, ← ih hndr hr]
      rfl

/-! ## The value-iteration loop always succeeds -/

theorem dkeys_pairs (l : List Cell) : dkeys (l.map fun s => (s, (0 : ℚ))) = l := by
  induction l with
  | nil => rfl
  | cons c cs ih =>
    simp only [dkeys, List.map_cons] at ih ⊢
    rw [ih]

theorem dkeys_V0 (p : Params) : dkeys (V0 p) = validStates p := dkeys_pairs _

theorem sweep_some {p : Params} {V : VMap} (hk : dkeys V = validStates p) :
    ∃ nv d, sweep p V = some (nv, d) ∧ dkeys nv = validStates p :=
  sweepAux_some hk fun _ hs => hs

theorem viLoop_some (p : Params) :
    ∀ (n : Nat) {V : VMap}, dkeys V = validStates p →
      ∃ Vf, viLoop p n V = some Vf ∧ dkeys Vf = validStates p := by
  intro n
  induction n with
  | zero => exact fun hk => ⟨_, rfl, hk⟩
  | succ m ih =>
    intro V hk
    obtain ⟨nv, d, hsw, hknv⟩ := sweep_some hk
    by_cases hd : d < threshold
    · refine ⟨nv, ?_, hknv⟩
      simp [viLoop, hsw, hd]
    · obtain ⟨Vf, hvf, hkf⟩ := ih hknv
      refine ⟨Vf, ?_, hkf⟩
      simp only [viLoop, hsw, if_neg hd]
      exact hvf

/-! ## Policy and Q-value extraction -/

theorem extractAux_inv {p : Params} {V : VMap} {c : Cell} {rest : List Cell}
    {pol : List (Cell × Action)} {qv : List (Cell × ℚ)}
    (hex : extractAux p V (c :: rest) = some (pol, qv)) :
    (c = p.goalPos →
      ∃ pol' qv', extractAux p V rest = some (pol', qv') ∧
        pol = pol' ∧ qv = (c, 0) :: qv') ∧
    (c ≠ p.goalPos →
      ∃ a v pol' qv', bestPair p V c = some (a, v) ∧
        extractAux p V rest = some (pol', qv') ∧
        pol = (c, a) :: pol' ∧ qv = (c, v) :: qv') := by
  constructor
  · intro hc
    rw [extractAux, if_pos hc] at hex
    rcases hr : extractAux p V rest with _ | ⟨pol', qv'⟩ <;> rw [hr] at hex
    · cases hex
    · injection hex with h
      exact ⟨pol', qv', rfl, congrArg Prod.fst h.symm, congrArg Prod.snd h.symm⟩
  · intro hc
    rw [extractAux, if_neg hc] at hex
    rcases hb : bestPair p V c with _ | ⟨a, v⟩ <;> rw [hb] at hex
    · cases hex
    rcases hr : extractAux p V rest with _ | ⟨pol', qv'⟩ <;> rw [hr] at hex
    · cases hex
    injection hex with h
    exact ⟨a, v, pol', qv', rfl, rfl,
      congrArg Prod.fst h.symm, congrArg Prod.snd h.symm⟩

theorem extractAux_keys {p : Params} {V : VMap} :
    ∀ {l : List Cell} {pol : List (Cell × Action)} {qv : List (Cell × ℚ)},
      extractAux p V l = some (pol, qv) →
      dkeys pol = l.filter (fun s => decide ¬(s = p.goalPos)) ∧ dkeys qv = l := by
  intro l
  induction l with
  | nil =>
    intro pol qv hex
    injection hex with h
    injection h with h1 h2
    subst h1
    subst h2
    exact ⟨rfl, rfl⟩
  | cons c rest ih =>
    intro pol qv hex
    by_cases hc : c = p.goalPos
    · obtain ⟨pol', qv', hr, rfl, rfl⟩ := (extractAux_inv hex).1 hc
      obtain ⟨k1, k2⟩ := ih hr
      refine ⟨?_, ?_⟩
      · rw [k1, List.filter_cons]
        simp [hc]
      · simp only [dkeys, List.map_cons] at k2 ⊢
        rw [k2]
    · obtain ⟨a, v, pol', qv', hb, hr, rfl, rfl⟩ := (extractAux_inv hex).2 hc
      obtain ⟨k1, k2⟩ := ih hr
      refine ⟨?_, ?_⟩
      · simp only [dkeys, List.map_cons] at k1 ⊢
        rw [k1, List.filter_cons]
        simp [hc]
      · simp only [dkeys, List.map_cons] at k2 ⊢
        rw [k2]

theorem extractAux_some {p : Params} {V : VMap} (hk : dkeys V = validStates p) :
    ∀ {l : List Cell}, (∀ s ∈ l, s ∈ validStates p) →
      ∃ pol qv, extractAux p V l = some (pol, qv) := by
  intro l
  induction l with
  | nil => exact fun _ => ⟨[], [], rfl⟩
  | cons c rest ih =>
    intro hall
    obtain ⟨pol', qv', hr⟩ := ih fun s hs => hall s (List.mem_cons_of_mem _ hs)
    by_cases hc : c = p.goalPos
    · exact ⟨pol', (c, 0) :: qv', by rw [extractAux, if_pos hc, hr]; rfl⟩
    · obtain ⟨-, hbp⟩ := bellmanBest_isSome hk (hall c (List.mem_cons_self ..)) hc
      obtain ⟨⟨a, v⟩, hav⟩ := Option.isSome_iff_exists.1 hbp
      exact ⟨(c, a) :: pol', (c, v) :: qv', by rw [extractAux, if_neg hc, hav, hr]⟩

theorem extractAux_lookup {p : Params} {V : VMap} :
    ∀ {l : List Cell} {pol : List (Cell × Action)} {qv : List (Cell × ℚ)}, l.Nodup →
      extractAux p V l = some (pol, qv) →
      ∀ s ∈ l, (s = p.goalPos → dlookup qv s = some 0) ∧
        (s ≠ p.goalPos → dlookup pol s = (bestPair p V s).map Prod.fst ∧
          dlookup qv s = (bestPair p V s).map Prod.snd) := by
  intro l
  induction l with
  | nil => intro pol qv _ _ s hs; cases hs
  | cons c rest ih =>
    intro pol qv hnd hex s hs
    have hndr := (List.nodup_cons.1 hnd).2
    have hcr := (List.nodup_cons.1 hnd).1
    by_cases hc : c = p.goalPos
    · obtain ⟨pol', qv', hr, rfl, rfl⟩ := (extractAux_inv hex).1 hc
      rcases List.mem_cons.1 hs with rfl | hs'
      · refine ⟨fun _ => ?_, fun hsg => absurd hc hsg⟩
        rw [dlookup, if_pos rfl]
      · have hsc : s ≠ c := fun h => hcr (h ▸ hs')
        have := ih hndr hr s hs'
        refine ⟨fun hsg => ?_, fun hsg => ⟨(this.2 hsg).1, ?_⟩⟩
        · rw [dlookup, if_neg hsc]
          exact this.1 hsg
        · rw [dlookup, if_neg hsc]
          exact (this.2 hsg).2
    · obtain ⟨a, v, pol', qv', hb, hr, rfl, rfl⟩ := (extractAux_inv hex).2 hc
      rcases List.mem_cons.1 hs with rfl | hs'
      · refine ⟨fun hsg => absurd hsg hc, fun _ => ⟨?_, ?_⟩⟩
        · rw [dlookup, if_pos rfl, hb]
          rfl
        · rw [dlookup, if_pos rfl, hb]
          rfl
      · have hsc : s ≠ c := fun h => hcr (h ▸ hs')
        have := ih hndr hr s hs'
        refine ⟨fun hsg => ?_, fun hsg => ⟨?_, ?_⟩⟩
        · rw [dlookup, if_neg hsc]
          exact this.1 hsg
        · rw [dlookup, if_neg hsc]
          exact (this.2 hsg).1
        · rw [dlookup, if_neg hsc]
          exact (this.2 hsg).2

/-! ## The index map -/

theorem idxMap_valid {p : Params} {s : Cell} (hs : s ∈ validStates p) :
    idxMap p.gridSize s = some (s.1 * p.gridSize + s.2 + 1) := by
  obtain ⟨h1, h2, h3, h4, -⟩ := mem_validStates.1 hs
  exact if_pos ⟨h1, h2, h3, h4⟩

theorem idxMap_some_iff {gs : Int} {s : Cell} {i : Int} :
    idxMap gs s = some i ↔
      (0 ≤ s.1 ∧ s.1 < gs ∧ 0 ≤ s.2 ∧ s.2 < gs) ∧ i = s.1 * gs + s.2 + 1 := by
  unfold idxMap
  split_ifs with h
  · constructor
    · intro he
      injection he with he
      exact ⟨h, he.symm⟩
    · rintro ⟨-, rfl⟩
      rfl
  · simp [h]

theorem idxMap_inj {gs : Int} {a b : Cell} {i : Int} (ha : idxMap gs a = some i)
    (hb : idxMap gs b = some i) : a = b := by
  obtain ⟨⟨ha1, ha2, ha3, ha4⟩, hia⟩ := idxMap_some_iff.1 ha
  obtain ⟨⟨hb1, hb2, hb3, hb4⟩, hib⟩ := idxMap_some_iff.1 hb
  obtain ⟨a1, a2⟩ := a
  obtain ⟨b1, b2⟩ := b
  dsimp only at ha1 ha2 ha3 ha4 hb1 hb2 hb3 hb4 hia hib
  have hgs : 0 < gs := lt_of_le_of_lt ha3 ha4
  have heq : a1 * gs + a2 = b1 * gs + b2 := by linarith [hia, hib]
  have h1' : a1 = b1 := by
    by_contra hne
    rcases lt_or_gt_of_ne hne with hlt | hgt
    · have hm : (a1 + 1) * gs ≤ b1 * gs :=
        mul_le_mul_of_nonneg_right (by omega) (le_of_lt hgs)
      nlinarith
    · have hm : (b1 + 1) * gs ≤ a1 * gs :=
        mul_le_mul_of_nonneg_right (by omega) (le_of_lt hgs)
      nlinarith
  have h2' : a2 = b2 := by
    rw [h1'] at heq
    linarith
  rw [h1', h2']

/-! ## Re-keying by index -/

theorem toIdxAux_inv {p : Params} {pol : List (Cell × Action)} {qv : List (Cell × ℚ)}
    {c : Cell} {rest : List Cell} {polI : List (Int × Action)} {qvI : List (Int × ℚ)}
    (ht : toIdxAux p pol qv (c :: rest) = some (polI, qvI)) :
    ∃ ci polI' qvI', idxMap p.gridSize c = some ci ∧
      toIdxAux p pol qv rest = some (polI', qvI') ∧
      ((c = p.goalPos ∧ polI = polI' ∧ qvI = (ci, 0) :: qvI') ∨
       (¬ c = p.goalPos ∧ ∃ a q0, dlookup pol c = some a ∧ dlookup qv c = some q0 ∧
         polI = (ci, a) :: polI' ∧ qvI = (ci, q0) :: qvI')) := by
  rw [toIdxAux] at ht
  rcases hi : idxMap p.gridSize c with _ | ci <;> rw [hi] at ht
  · cases ht
  rcases hr : toIdxAux p pol qv rest with _ | ⟨polI', qvI'⟩ <;> rw [hr] at ht
  · cases ht
  dsimp only at ht
  by_cases hc : c = p.goalPos
  · rw [if_pos hc] at ht
    injection ht with h
    exact ⟨ci, polI', qvI', rfl, rfl,
      Or.inl ⟨hc, congrArg Prod.fst h.symm, congrArg Prod.snd h.symm⟩⟩
  · rw [if_neg hc] at ht
    rcases hpa : dlookup pol c with _ | a <;> rw [hpa] at ht
    · cases ht
    rcases hqa : dlookup qv c with _ | q0 <;> rw [hqa] at ht
    · cases ht
    injection ht with h
    exact ⟨ci, polI', qvI', rfl, rfl,
      Or.inr ⟨hc, a, q0, rfl, rfl, congrArg Prod.fst h.symm, congrArg Prod.snd h.symm⟩⟩

theorem toIdxAux_some {p : Params} {pol : List (Cell × Action)} {qv : List (Cell × ℚ)} :
    ∀ {l : List Cell}, (∀ s ∈ l, s ∈ validStates p) →
      (∀ s ∈ l, ¬ s = p.goalPos →
        (dlookup pol s).isSome = true ∧ (dlookup qv s).isSome = true) →
      ∃ polI qvI, toIdxAux p pol qv l = some (polI, qvI) := by
  intro l
  induction l with
  | nil => exact fun _ _ => ⟨[], [], rfl⟩
  | cons c rest ih =>
    intro hall hlook
    obtain ⟨polI', qvI', hr⟩ := ih (fun s hs => hall s (List.mem_cons_of_mem _ hs))
      (fun s hs => hlook s (List.mem_cons_of_mem _ hs))
    have hi := idxMap_valid (hall c (List.mem_cons_self ..))
    by_cases hc : c = p.goalPos
    · refine ⟨polI', (c.1 * p.gridSize + c.2 + 1, 0) :: qvI', ?_⟩
      rw [toIdxAux, hi, hr]
      dsimp only
      rw [if_pos hc]
    · obtain ⟨hp, hq⟩ := hlook c (List.mem_cons_self ..) hc
      obtain ⟨a, hpa⟩ := Option.isSome_iff_exists.1 hp
      obtain ⟨q0, hqa⟩ := Option.isSome_iff_exists.1 hq
      refine ⟨(c.1 * p.gridSize + c.2 + 1, a) :: polI',
        (c.1 * p.gridSize + c.2 + 1, q0) :: qvI', ?_⟩
      rw [toIdxAux, hi, hr]
      dsimp only
      rw [if_neg hc, hpa, hqa]

theorem toIdxAux_keyShape {p : Params} {pol : List (Cell × Action)} {qv : List (Cell × ℚ)} :
    ∀ {l : List Cell} {polI : List (Int × Action)} {qvI : List (Int × ℚ)},
      toIdxAux p pol qv l = some (polI, qvI) →
      (∀ i ∈ dkeys polI, ∃ s ∈ l, ¬ s = p.goalPos ∧ idxMap p.gridSize s = some i) ∧
      (∀ i ∈ dkeys qvI, ∃ s ∈ l, idxMap p.gridSize s = some i) := by
  intro l
  induction l with
  | nil =>
    intro polI qvI ht
    injection ht with h
    injection h with h1 h2
    subst h1
    subst h2
    exact ⟨fun i hi => absurd hi (List.not_mem_nil _), fun i hi => absurd hi (List.not_mem_nil _)⟩
  | cons c rest ih =>
    intro polI qvI ht
    obtain ⟨ci, polI', qvI', hi, hr, hcase⟩ := toIdxAux_inv ht
    obtain ⟨ih1, ih2⟩ := ih hr
    rcases hcase with ⟨hc, rfl, rfl⟩ | ⟨hc, a, q0, hpa, hqa, rfl, rfl⟩
    · refine ⟨?_, ?_⟩
      · intro i hmem
        obtain ⟨s, hs, hsg, hsi⟩ := ih1 i hmem
        exact ⟨s, List.mem_cons_of_mem _ hs, hsg, hsi⟩
      · intro i hmem
        rcases List.mem_cons.1 hmem with rfl | hmem'
        · exact ⟨c, List.mem_cons_self .., hi⟩
        · obtain ⟨s, hs, hsi⟩ := ih2 i hmem'
          exact ⟨s, List.mem_cons_of_mem _ hs, hsi⟩
    · refine ⟨?_, ?_⟩
      · intro i hmem
        rcases List.mem_cons.1 hmem with rfl | hmem'
        · exact ⟨c, List.mem_cons_self .., hc, hi⟩
        · obtain ⟨s, hs, hsg, hsi⟩ := ih1 i hmem'
          exact ⟨s, List.mem_cons_of_mem _ hs, hsg, hsi⟩
      · intro i hmem
        rcases List.mem_cons.1 hmem with rfl | hmem'
        · exact ⟨c, List.mem_cons_self .., hi⟩
        · obtain ⟨s, hs, hsi⟩ := ih2 i hmem'
          exact ⟨s, List.mem_cons_of_mem _ hs, hsi⟩

theorem toIdxAux_lookup {p : Params} {pol : List (Cell × Action)} {qv : List (Cell × ℚ)} :
    ∀ {l : List Cell} {polI : List (Int × Action)} {qvI : List (Int × ℚ)}, l.Nodup →
      toIdxAux p pol qv l = some (polI, qvI) →
      ∀ s ∈ l, ∀ i, idxMap p.gridSize s = some i →
        (s = p.goalPos → dlookup qvI i = some 0 ∧ dlookup polI i = none) ∧
        (¬ s = p.goalPos → dlookup polI i = dlookup pol s ∧ dlookup qvI i = dlookup qv s) := by
  intro l
  induction l with
  | nil => intro polI qvI _ _ s hs; cases hs
  | cons c rest ih =>
    intro polI qvI hnd ht s hs i hsi
    have hndr := (List.nodup_cons.1 hnd).2
    have hcr := (List.nodup_cons.1 hnd).1
    obtain ⟨ci, polI', qvI', hi, hr, hcase⟩ := toIdxAux_inv ht
    rcases hcase with ⟨hc, rfl, rfl⟩ | ⟨hc, a, q0, hpa, hqa, rfl, rfl⟩
    · rcases List.mem_cons.1 hs with rfl | hs'
      · have hici : i = ci := by
          rw [hsi] at hi
          injection hi
        subst hici
        refine ⟨fun _ => ⟨by rw [dlookup, if_pos rfl], ?_⟩, fun hsg => absurd hc hsg⟩
        rw [dlookup_eq_none_iff]
        intro hmem
        obtain ⟨s', hs', hsg', hsi'⟩ := (toIdxAux_keyShape hr).1 i hmem
        exact hcr (idxMap_inj hsi hsi' ▸ hs')
      · have hsc : s ≠ c := fun h => hcr (h ▸ hs')
        have hici : i ≠ ci := fun h => hsc (idxMap_inj hsi (h ▸ hi))
        have := ih hndr hr s hs' i hsi
        refine ⟨fun hsg => ⟨?_, (this.1 hsg).2⟩, fun hsg => ⟨(this.2 hsg).1, ?_⟩⟩
        · rw [dlookup, if_neg hici]
          exact (this.1 hsg).1
        · rw [dlookup, if_neg hici]
          exact (this.2 hsg).2
    · rcases List.mem_cons.1 hs with rfl | hs'
      · have hici : i = ci := by
          rw [hsi] at hi
          injection hi
        subst hici
        refine ⟨fun hsg => absurd hsg hc, fun _ => ⟨?_, ?_⟩⟩
        · rw [dlookup, if_pos rfl, hpa]
        · rw [dlookup, if_pos rfl, hqa]
      · have hsc : s ≠ c := fun h => hcr (h ▸ hs')
        have hici : i ≠ ci := fun h => hsc (idxMap_inj hsi (h ▸ hi))
        have := ih hndr hr s hs' i hsi
        refine ⟨fun hsg => ⟨?_, ?_⟩, fun hsg => ⟨?_, ?_⟩⟩
        · rw [dlookup, if_neg hici]
          exact (this.1 hsg).1
        · rw [dlookup, if_neg hici]
          exact (this.1 hsg).2
        · rw [dlookup, if_neg hici]
          exact (this.2 hsg).1
        · rw [dlookup, if_neg hici]
          exact (this.2 hsg).2

/-! ## The greedy policy walk -/

theorem filter_visited_sublist (l visited : List Cell) (c : Cell) :
    List.Sublist (l.filter fun s => decide (s ∉ c :: visited))
      (l.filter fun s => decide (s ∉ visited)) := by
  apply List.monotone_filter_right
  intro a ha
  simp only [decide_eq_true_eq, List.mem_cons] at ha ⊢
  exact fun hmem => ha (Or.inr hmem)

theorem filter_visited_lt {p : Params} {visited : List Cell} {c : Cell}
    (hc : c ∈ validStates p) (hcv : c ∉ visited) :
    ((validStates p).filter fun s => decide (s ∉ c :: visited)).length <
      ((validStates p).filter fun s => decide (s ∉ visited)).length := by
  have hsub := filter_visited_sublist (validStates p) visited c
  apply Nat.lt_of_le_of_ne hsub.length_le
  intro heq
  have heql := hsub.eq_of_length heq
  have hcmem : c ∈ (validStates p).filter fun s => decide (s ∉ visited) := by
    rw [List.mem_filter]
    exact ⟨hc, by simpa using hcv⟩
  rw [← heql, List.mem_filter] at hcmem
  have := hcmem.2
  simp at this

theorem walkLoop_no_fuelOut (p : Params) (polI : List (Int × Action)) :
    ∀ (fuel : Nat) (path : List Int) (visited : List Cell) (current : Cell),
      ((validStates p).filter fun s => decide (s ∉ visited)).length +
        (if current ∈ validStates p then 1 else 2) ≤ fuel →
      walkLoop p polI fuel path visited current ≠ .fuelOut := by
  intro fuel
  induction fuel with
  | zero =>
    intro path visited current hle
    exfalso
    by_cases h : current ∈ validStates p
    · rw [if_pos h] at hle
      omega
    · rw [if_neg h] at hle
      omega
  | succ m ih =>
    intro path visited current hle
    rw [walkLoop]
    rcases hi : idxMap p.gridSize current with _ | ci
    · intro h
      cases h
    dsimp only
    by_cases hg : current = p.goalPos
    · rw [if_pos hg]
      intro h
      cases h
    rw [if_neg hg]
    by_cases hv : current ∈ visited
    · rw [if_pos hv]
      intro h
      cases h
    rw [if_neg hv]
    rcases ha : dlookup polI ci with _ | a
    · intro h
      cases h
    dsimp only
    rcases hm : move current a with ⟨r, c⟩
    dsimp only
    by_cases hval : is_valid p r c
    · rw [if_neg (not_not_intro hval)]
      apply ih
      have hrc : (r, c) ∈ validStates p := mem_validStates_iff_is_valid.2 hval
      rw [if_pos hrc]
      by_cases hcur : current ∈ validStates p
      · rw [if_pos hcur] at hle
        have := filter_visited_lt hcur hv
        omega
      · rw [if_neg hcur] at hle
        have := (filter_visited_sublist (validStates p) visited current).length_le
        omega
    · rw [if_pos hval]
      intro h
      cases h

theorem walkLoop_done_path {p : Params} {polI : List (Int × Action)} :
    ∀ {fuel : Nat} {path : List Int} {visited : List Cell} {current : Cell}
      {pth : List Int} {b : Bool},
      walkLoop p polI fuel path visited current = .done pth b →
      ∃ ci rest, idxMap p.gridSize current = some ci ∧ pth = path ++ ci :: rest := by
  intro fuel
  induction fuel with
  | zero =>
    intro path visited current pth b h
    cases h
  | succ m ih =>
    intro path visited current pth b h
    rw [walkLoop] at h
    rcases hi : idxMap p.gridSize current with _ | ci <;> rw [hi] at h
    · cases h
    dsimp only at h
    by_cases hg : current = p.goalPos
    · rw [if_pos hg] at h
      injection h with h1 h2
      exact ⟨ci, [], rfl, h1.symm⟩
    rw [if_neg hg] at h
    by_cases hv : current ∈ visited
    · rw [if_pos hv] at h
      injection h with h1 h2
      exact ⟨ci, [], rfl, h1.symm⟩
    rw [if_neg hv] at h
    rcases ha : dlookup polI ci with _ | a <;> rw [ha] at h
    · injection h with h1 h2
      exact ⟨ci, [], rfl, h1.symm⟩
    dsimp only at h
    rcases hm : move current a with ⟨r, c⟩
    rw [hm] at h
    by_cases hval : is_valid p r c
    · rw [if_neg (not_not_intro hval)] at h
      obtain ⟨ci', rest', hci', hpth⟩ := ih h
      refine ⟨ci, ci' :: rest', rfl, ?_⟩
      rw [hpth, List.append_assoc]
      rfl
    · rw [if_pos hval] at h
      injection h with h1 h2
      exact ⟨ci, [], rfl, h1.symm⟩

theorem move_symm {s g : Cell} {a : Action} (h : move s a = g) : ∃ b, move g b = s := by
  obtain ⟨r, c⟩ := s
  subst h
  cases a
  · exact ⟨.D, by simp [move]⟩
  · exact ⟨.U, by simp [move]⟩
  · exact ⟨.R, by simp [move]⟩
  · exact ⟨.L, by simp [move]⟩

theorem walkLoop_not_reach {p : Params} {polI : List (Int × Action)}
    (hwall : ∀ a : Action, 0 ≤ (move p.goalPos a).1 → (move p.goalPos a).1 < p.gridSize →
      0 ≤ (move p.goalPos a).2 → (move p.goalPos a).2 < p.gridSize →
      move p.goalPos a ∈ p.obstacles)
    (hpol : ∀ i a, dlookup polI i = some a →
      ∃ s ∈ validStates p, ¬ s = p.goalPos ∧ idxMap p.gridSize s = some i) :
    ∀ (fuel : Nat) (path : List Int) (visited : List Cell) (current : Cell),
      current ≠ p.goalPos →
      ∀ pth, walkLoop p polI fuel path visited current ≠ .done pth true := by
  intro fuel
  induction fuel with
  | zero =>
    intro path visited current _ pth h
    cases h
  | succ m ih =>
    intro path visited current hg pth
    rw [walkLoop]
    rcases hi : idxMap p.gridSize current with _ | ci
    · intro h
      cases h
    dsimp only
    rw [if_neg hg]
    by_cases hv : current ∈ visited
    · rw [if_pos hv]
      intro h
      injection h with h1 h2
      exact Bool.noConfusion h2
    rw [if_neg hv]
    rcases ha : dlookup polI ci with _ | a
    · intro h
      injection h with h1 h2
      exact Bool.noConfusion h2
    dsimp only
    rcases hm : move current a with ⟨r, c⟩
    dsimp only
    by_cases hval : is_valid p r c
    · rw [if_neg (not_not_intro hval)]
      apply ih
      intro hrc
      have hgvalid : p.goalPos ∈ validStates p := by
        rw [← hrc]
        exact mem_validStates_iff_is_valid.2 hval
      rw [hrc] at hm
      obtain ⟨b, hback⟩ := move_symm hm
      obtain ⟨hcb1, hcb2, hcb3, hcb4⟩ := (idxMap_some_iff.1 hi).1
      have hobs : current ∈ p.obstacles := by
        rw [← hback]
        exact hwall b (by rw [hback]; exact hcb1) (by rw [hback]; exact hcb2)
          (by rw [hback]; exact hcb3) (by rw [hback]; exact hcb4)
      obtain ⟨s, hsval, -, hsi⟩ := hpol ci a ha
      have hsc : s = current := idxMap_inj hsi hi
      rw [hsc] at hsval
      exact (mem_validStates.1 hsval).2.2.2.2 hobs
    · rw [if_pos hval]
      intro h
      injection h with h1 h2
      exact Bool.noConfusion h2

/-! ## Assembling the pipeline -/

theorem dkeys_cons {α β : Type} (kv : α × β) (l : List (α × β)) :
    dkeys (kv :: l) = kv.1 :: dkeys l := rfl

theorem sweepAux_keys {p : Params} {V : VMap} :
    ∀ {l : List Cell} {nv : VMap} {d : ℚ}, sweepAux p V l = some (nv, d) → dkeys nv = l := by
  intro l
  induction l with
  | nil =>
    intro nv d h
    injection h with h
    injection h with h1 h2
    subst h1
    rfl
  | cons c rest ih =>
    intro nv d h
    by_cases hc : c = p.goalPos
    · obtain ⟨nv', d', hr, rfl, rfl⟩ := (sweepAux_inv h).1 hc
      rw [dkeys_cons, ih hr]
    · obtain ⟨bv, old, nv', d', hb, ho, hr, rfl, rfl⟩ := (sweepAux_inv h).2 hc
      rw [dkeys_cons, ih hr]

theorem deltaOfAll_nonneg (V nv : VMap) : ∀ (l : List Cell), 0 ≤ deltaOfAll V nv l := by
  intro l
  induction l with
  | nil => exact le_refl 0
  | cons c rest ih => exact le_max_of_le_left (abs_nonneg _)

theorem deltaOf_eq_deltaOfAll {p : Params} {V nv : VMap}
    (hgoal : (dlookup nv p.goalPos).getD 0 = (dlookup V p.goalPos).getD 0) :
    ∀ (l : List Cell), deltaOf p V nv l = deltaOfAll V nv l := by
  intro l
  induction l with
  | nil => rfl
  | cons c rest ih =>
    by_cases hc : c = p.goalPos
    · rw [deltaOf, if_pos hc, ih, deltaOfAll, hc, hgoal, sub_self, abs_zero,
        max_eq_right (deltaOfAll_nonneg _ _ _)]
    · rw [deltaOf, if_neg hc, ih, deltaOfAll]

theorem pipeline_some (p : Params) :
    ∃ Vf pol qv polI qvI,
      viLoop p maxIterations (V0 p) = some Vf ∧ dkeys Vf = validStates p ∧
      extract p Vf = some (pol, qv) ∧ toIdx p pol qv = some (polI, qvI) := by
  obtain ⟨Vf, hvl, hkf⟩ := viLoop_some p maxIterations (dkeys_V0 p)
  obtain ⟨pol, qv, hex⟩ := extractAux_some hkf fun _ hs => hs
  have hlook : ∀ s ∈ validStates p, ¬ s = p.goalPos →
      (dlookup pol s).isSome = true ∧ (dlookup qv s).isSome = true := by
    intro s hs hg
    have hl := extractAux_lookup (nodup_validStates p) hex s hs
    obtain ⟨-, hbp⟩ := bellmanBest_isSome hkf hs hg
    obtain ⟨⟨a, v⟩, hav⟩ := Option.isSome_iff_exists.1 hbp
    obtain ⟨h1, h2⟩ := hl.2 hg
    rw [h1, h2, hav]
    exact ⟨rfl, rfl⟩
  obtain ⟨polI, qvI, hti⟩ := toIdxAux_some (fun _ hs => hs) hlook
  exact ⟨Vf, pol, qv, polI, qvI, hvl, hkf, hex, hti⟩

theorem train_walk_eq {gs : Int} {st gl : Cell} {obs : List Cell} {Vf : VMap}
    {pol : List (Cell × Action)} {qv : List (Cell × ℚ)}
    {polI : List (Int × Action)} {qvI : List (Int × ℚ)}
    (hvl : viLoop ⟨gs, st, gl, obs⟩ maxIterations (V0 ⟨gs, st, gl, obs⟩) = some Vf)
    (hex : extract ⟨gs, st, gl, obs⟩ Vf = some (pol, qv))
    (hti : toIdx ⟨gs, st, gl, obs⟩ pol qv = some (polI, qvI)) :
    train gs st gl obs =
      match walkLoop ⟨gs, st, gl, obs⟩ polI
          ((validStates ⟨gs, st, gl, obs⟩).length + 2) [] [] st with
      | .keyErr => none
      | .fuelOut => none
      | .done path reachable => some ⟨polI, qvI, path, reachable⟩ := by
  rw [train, hvl]
  dsimp only
  rw [hex]
  dsimp only
  rw [hti]

theorem train_inv {gs : Int} {st gl : Cell} {obs : List Cell} {res : TrainResult}
    (h : train gs st gl obs = some res) :
    ∃ Vf pol qv,
      viLoop ⟨gs, st, gl, obs⟩ maxIterations (V0 ⟨gs, st, gl, obs⟩) = some Vf ∧
      dkeys Vf = validStates ⟨gs, st, gl, obs⟩ ∧
      extract ⟨gs, st, gl, obs⟩ Vf = some (pol, qv) ∧
      toIdx ⟨gs, st, gl, obs⟩ pol qv = some (res.policy, res.qValues) ∧
      walkLoop ⟨gs, st, gl, obs⟩ res.policy
        ((validStates ⟨gs, st, gl, obs⟩).length + 2) [] [] st =
        .done res.path res.reachable := by
  obtain ⟨Vf, pol, qv, polI, qvI, hvl, hkf, hex, hti⟩ := pipeline_some ⟨gs, st, gl, obs⟩
  rw [train_walk_eq hvl hex hti] at h
  rcases hwk : walkLoop ⟨gs, st, gl, obs⟩ polI
      ((validStates ⟨gs, st, gl, obs⟩).length + 2) [] [] st with _ | _ | ⟨path, reach⟩ <;>
    rw [hwk] at h
  · cases h
  · cases h
  · injection h with h
    subst h
    exact ⟨Vf, pol, qv, hvl, hkf, hex, hti, hwk⟩

/-! ## Claim theorems -/

section ClaimTheorems

attribute [local semireducible] Rat.mul Rat.add Rat.sub Rat.inv

/-- C2: the value-iteration loop structure: `maxIterations = 1000` bounds the
number of sweeps (`viLoop` in `train` is fuelled by `maxIterations`), a
fuel-exhausted loop returns the last computed `V` with no error, each sweep
writes `newV(s) = bellmanBest` computed from the previous snapshot `V` only
(synchronous/Jacobi) and forces the goal state to `0.0`, `delta` is the
maximum of `|newV(s) - V(s)|` over the states (the goal is skipped by the
source, which coincides with the max over all states whenever the incoming
`V` pins the goal at `0`), and the loop stops early exactly when
`delta < threshold = 1e-3`. -/
theorem c2_value_iteration (p : Params) (V newV : VMap) (d : ℚ) (n : Nat) :
    maxIterations = 1000 ∧ threshold = 1 / 1000 ∧ gamma = 9 / 10 ∧
    viLoop p 0 V = some V ∧
    (sweep p V = some (newV, d) →
      (∀ s ∈ validStates p,
        dlookup newV s = if s = p.goalPos then some 0 else bellmanBest p V s) ∧
      d = deltaOf p V newV (validStates p) ∧
      (dkeys V = validStates p →
        (p.goalPos ∈ validStates p → dlookup V p.goalPos = some 0) →
        d = deltaOfAll V newV (validStates p)) ∧
      (d < threshold → viLoop p (n + 1) V = some newV) ∧
      (¬ d < threshold → viLoop p (n + 1) V = viLoop p n newV)) := by
  refine ⟨rfl, rfl, rfl, rfl, fun hs => ⟨?_, ?_, ?_, ?_, ?_⟩⟩
  · exact sweepAux_lookup (nodup_validStates p) hs
  · exact sweepAux_delta (nodup_validStates p) hs
  · intro hkV hVg
    rw [sweepAux_delta (nodup_validStates p) hs]
    apply deltaOf_eq_deltaOfAll
    by_cases hmem : p.goalPos ∈ validStates p
    · have h1 := sweepAux_lookup (nodup_validStates p) hs p.goalPos hmem
      rw [if_pos rfl] at h1
      rw [h1, hVg hmem]
    · have h1 : dlookup newV p.goalPos = none := by
        rw [dlookup_eq_none_iff, sweepAux_keys hs]
        exact hmem
      have h2 : dlookup V p.goalPos = none := by
        rw [dlookup_eq_none_iff, hkV]
        exact hmem
      rw [h1, h2]
  · intro hd
    simp only [viLoop, hs]
    rw [if_pos hd]
  · intro hd
    simp only [viLoop, hs]
    rw [if_neg hd]

/-- Witness for C2 on a 2×2 grid: the first sweep from the zero value
function produces the stated `new_V` and `delta = 1`, and since
`1 ≥ threshold` the loop recurses on `new_V`. -/
theorem c2_value_iteration_witness :
    viLoop ⟨2, (0, 0), (1, 1), []⟩ 1 (V0 ⟨2, (0, 0), (1, 1), []⟩) =
      viLoop ⟨2, (0, 0), (1, 1), []⟩ 0
        [((0, 0), 0), ((0, 1), 1), ((1, 0), 1), ((1, 1), 0)] :=
  ((c2_value_iteration ⟨2, (0, 0), (1, 1), []⟩ (V0 ⟨2, (0, 0), (1, 1), []⟩)
      [((0, 0), 0), ((0, 1), 1), ((1, 0), 1), ((1, 1), 0)] 1 0).2.2.2.2
    (by decide)).2.2.2.2 (by decide)

/-- C3: ties in the Bellman maximization are broken in favour of the first
action in the fixed order `{U, D, L, R}` (strict `>` replacement): for any
non-goal valid state the extracted policy action attains the maximal
candidate value and strictly beats every action earlier in the order, the
extracted Q-value is that maximum, and the value-iteration sweep writes the
same maximal value. -/
theorem c3_tie_breaking (p : Params) (V : VMap) (s : Cell)
    (hk : dkeys V = validStates p) (hs : s ∈ validStates p) (hg : ¬ s = p.goalPos)
    (pol : List (Cell × Action)) (qv : List (Cell × ℚ))
    (hex : extract p V = some (pol, qv)) :
    ∃ (q : Action → ℚ) (a : Action),
      (∀ b, qCand p V s b = some (q b)) ∧
      dlookup pol s = some a ∧
      dlookup qv s = some (q a) ∧
      (∀ b, q b ≤ q a) ∧
      (∀ b, actionIdx b < actionIdx a → q b < q a) ∧
      ∀ nv d, sweep p V = some (nv, d) → dlookup nv s = some (q a) := by
  have hall : ∀ b ∈ actionsList,
      qCand p V s b = some ((qCand p V s b).get (qCand_isSome hk hs hg b)) := fun b _ =>
    (Option.some_get (qCand_isSome hk hs hg b)).symm
  set q : Action → ℚ := fun b => (qCand p V s b).get (qCand_isSome hk hs hg b) with hqdef
  have hc : actionCandidates p V s = some (actionsList.map fun b => (b, q b)) :=
    candList_eq_map q hall
  obtain ⟨a, hr, hmax, hfirst⟩ := runBestPair_four q
  have hbp : bestPair p V s = some (a, q a) := by
    rw [bestPair, hc]
    show runBestPair (actionsList.map fun b => (b, q b)) = some (a, q a)
    simpa only [actionsList, List.map_cons, List.map_nil] using hr
  have hlk := extractAux_lookup (nodup_validStates p) hex s hs
  refine ⟨q, a, fun b => hall b (by cases b <;> simp [actionsList]), ?_, ?_, hmax, hfirst, ?_⟩
  · rw [(hlk.2 hg).1, hbp]
    rfl
  · rw [(hlk.2 hg).2, hbp]
    rfl
  · intro nv d hsw
    have hnv := sweepAux_lookup (nodup_validStates p) hsw s hs
    rw [if_neg hg] at hnv
    rw [hnv, bellmanBest, hc]
    show runBestQ (actionsList.map fun b => (b, q b)) = some (q a)
    rw [runBestQ_eq_map]
    simp only [actionsList, List.map_cons, List.map_nil] at hr ⊢
    rw [hr]
    rfl

/-- Witness for C3 on the 3×3 empty grid with the zero value function and
state `(0, 0)`: the hypotheses hold by computation and the tie-broken best
action exists as stated. -/
theorem c3_tie_breaking_witness :
    ∃ (q : Action → ℚ) (a : Action),
      (∀ b, qCand ⟨3, (0, 0), (2, 2), []⟩ (V0 ⟨3, (0, 0), (2, 2), []⟩) (0, 0) b = some (q b)) ∧
      dlookup [((0, 0), Action.D), ((0, 1), Action.D), ((0, 2), Action.D),
        ((1, 0), Action.U), ((1, 1), Action.U), ((1, 2), Action.D),
        ((2, 0), Action.U), ((2, 1), Action.R)] (0, 0) = some a ∧
      dlookup [((0, 0), (0 : ℚ)), ((0, 1), 0), ((0, 2), 0), ((1, 0), 0), ((1, 1), 0),
        ((1, 2), 1), ((2, 0), 0), ((2, 1), 1), ((2, 2), 0)] (0, 0) = some (q a) ∧
      (∀ b, q b ≤ q a) ∧
      (∀ b, actionIdx b < actionIdx a → q b < q a) ∧
      ∀ nv d, sweep ⟨3, (0, 0), (2, 2), []⟩ (V0 ⟨3, (0, 0), (2, 2), []⟩) = some (nv, d) →
        dlookup nv (0, 0) = some (q a) :=
  c3_tie_breaking ⟨3, (0, 0), (2, 2), []⟩ (V0 ⟨3, (0, 0), (2, 2), []⟩) (0, 0)
    (by decide) (by decide) (by decide)
    [((0, 0), Action.D), ((0, 1), Action.D), ((0, 2), Action.D),
      ((1, 0), Action.U), ((1, 1), Action.U), ((1, 2), Action.D),
      ((2, 0), Action.U), ((2, 1), Action.R)]
    [((0, 0), (0 : ℚ)), ((0, 1), 0), ((0, 2), 0), ((1, 0), 0), ((1, 1), 0),
      ((1, 2), 1), ((2, 0), 0), ((2, 1), 1), ((2, 2), 0)]
    (by decide)

/-- C4: absorbing goal: for a goal that is an in-bounds non-obstacle cell,
a successful solve maps the goal's index to Q-value `0.0`, gives the goal no
policy entry, and gives every other in-bounds non-obstacle cell both a
policy entry and a Q-value entry. -/
theorem c4_absorbing_goal (gs : Int) (st gl : Cell) (obs : List Cell) (res : TrainResult)
    (hb1 : 0 ≤ gl.1) (hb2 : gl.1 < gs) (hb3 : 0 ≤ gl.2) (hb4 : gl.2 < gs)
    (hobs : gl ∉ obs) (htr : train gs st gl obs = some res) :
    ∃ gi, idxMap gs gl = some gi ∧
      dlookup res.qValues gi = some 0 ∧ dlookup res.policy gi = none ∧
      ∀ s : Cell, 0 ≤ s.1 → s.1 < gs → 0 ≤ s.2 → s.2 < gs → s ∉ obs → ¬ s = gl →
        ∃ si, idxMap gs s = some si ∧
          (dlookup res.policy si).isSome = true ∧ (dlookup res.qValues si).isSome = true := by
  obtain ⟨Vf, pol, qv, hvl, hkf, hex, hti, hwk⟩ := train_inv htr
  have hti' : toIdxAux ⟨gs, st, gl, obs⟩ pol qv (validStates ⟨gs, st, gl, obs⟩) =
      some (res.policy, res.qValues) := hti
  have hex' : extractAux ⟨gs, st, gl, obs⟩ Vf (validStates ⟨gs, st, gl, obs⟩) =
      some (pol, qv) := hex
  have hglv : gl ∈ validStates ⟨gs, st, gl, obs⟩ := mem_validStates.2 ⟨hb1, hb2, hb3, hb4, hobs⟩
  have hgi := idxMap_valid hglv
  have hl := toIdxAux_lookup (nodup_validStates _) hti' gl hglv _ hgi
  obtain ⟨hq0, hpnone⟩ := hl.1 rfl
  refine ⟨gl.1 * gs + gl.2 + 1, hgi, hq0, hpnone, ?_⟩
  intro s s1 s2 s3 s4 sobs sgl
  have hsv : s ∈ validStates ⟨gs, st, gl, obs⟩ := mem_validStates.2 ⟨s1, s2, s3, s4, sobs⟩
  have hsi := idxMap_valid hsv
  have hls := toIdxAux_lookup (nodup_validStates _) hti' s hsv _ hsi
  obtain ⟨hpe, hqe⟩ := hls.2 sgl
  have hexl := extractAux_lookup (nodup_validStates _) hex' s hsv
  obtain ⟨hpe', hqe'⟩ := hexl.2 sgl
  obtain ⟨-, hbp⟩ := bellmanBest_isSome hkf hsv sgl
  obtain ⟨⟨a, v⟩, hav⟩ := Option.isSome_iff_exists.1 hbp
  refine ⟨s.1 * gs + s.2 + 1, hsi, ?_, ?_⟩
  · rw [hpe, hpe', hav]
    rfl
  · rw [hqe, hqe', hav]
    rfl

/-- Witness for C4 on the 2×2 empty grid with goal `(1, 1)`: its computed
result satisfies the absorbing-goal property. -/
theorem c4_absorbing_goal_witness :
    ∃ gi, idxMap 2 (1, 1) = some gi ∧
      dlookup (TrainResult.mk [(1, Action.D), (2, Action.D), (3, Action.R)]
        [(1, 9/10), (2, 1), (3, 1), (4, 0)] [1, 3, 4] true).qValues gi = some 0 ∧
      dlookup (TrainResult.mk [(1, Action.D), (2, Action.D), (3, Action.R)]
        [(1, 9/10), (2, 1), (3, 1), (4, 0)] [1, 3, 4] true).policy gi = none ∧
      ∀ s : Cell, 0 ≤ s.1 → s.1 < 2 → 0 ≤ s.2 → s.2 < 2 → s ∉ ([] : List Cell) →
        ¬ s = (1, 1) →
        ∃ si, idxMap 2 s = some si ∧
          (dlookup (TrainResult.mk [(1, Action.D), (2, Action.D), (3, Action.R)]
            [(1, 9/10), (2, 1), (3, 1), (4, 0)] [1, 3, 4] true).policy si).isSome = true ∧
          (dlookup (TrainResult.mk [(1, Action.D), (2, Action.D), (3, Action.R)]
            [(1, 9/10), (2, 1), (3, 1), (4, 0)] [1, 3, 4] true).qValues si).isSome = true :=
  c4_absorbing_goal 2 (0, 0) (1, 1) []
    (TrainResult.mk [(1, Action.D), (2, Action.D), (3, Action.R)]
      [(1, 9/10), (2, 1), (3, 1), (4, 0)] [1, 3, 4] true)
    (by decide) (by decide) (by decide) (by decide) (by decide) (by decide)

/-- C5: on the 3×3 obstacle-free grid with start `(0, 0)` and goal `(2, 2)`
the solver reports the goal reachable with a 5-cell path whose consecutive
cells are Down or Right unit moves, each strictly decreasing the Manhattan
distance to the goal. -/
theorem c5_small_grid_path :
    ∃ res, train 3 (0, 0) (2, 2) [] = some res ∧ res.reachable = true ∧
      res.path.length = 5 ∧ drChain 3 (2, 2) res.path = true := by
  refine ⟨TrainResult.mk
    [(1, .D), (2, .D), (3, .D), (4, .D), (5, .D), (6, .D), (7, .R), (8, .R)]
    [(1, 729/1000), (2, 81/100), (3, 9/10), (4, 81/100), (5, 9/10), (6, 1),
      (7, 9/10), (8, 1), (9, 0)]
    [1, 4, 7, 8, 9] true, ?_, rfl, rfl, ?_⟩
  · decide
  · decide

/-- C6: the greedy policy walk terminates on every input — with fuel
`|validStates| + 2` the fuelled loop never runs out, ending in a `KeyError`
or a normal break — and on an adversarial layout whose policy oscillates
between cells `(0,0)` and `(1,0)` it stops with `reachable = false` and the
partial path `[1, 4, 1]`. -/
theorem c6_walk_terminates :
    (∀ (p : Params) (polI : List (Int × Action)) (st : Cell),
      walkLoop p polI ((validStates p).length + 2) [] [] st = .keyErr ∨
      ∃ pth r, walkLoop p polI ((validStates p).length + 2) [] [] st = .done pth r) ∧
    ∃ res, train 3 (0, 0) (2, 2) [(0, 1), (1, 1), (2, 1), (2, 0)] = some res ∧
      res.reachable = false ∧ res.path = [1, 4, 1] := by
  constructor
  · intro p polI st
    have hfil : (validStates p).filter (fun s => decide (s ∉ ([] : List Cell))) =
        validStates p := List.filter_eq_self.2 fun a _ => by simp
    have hle : ((validStates p).filter fun s => decide (s ∉ ([] : List Cell))).length +
        (if st ∈ validStates p then 1 else 2) ≤ (validStates p).length + 2 := by
      rw [hfil]
      by_cases hst : st ∈ validStates p
      · rw [if_pos hst]
        omega
      · rw [if_neg hst]
    have hne := walkLoop_no_fuelOut p polI ((validStates p).length + 2) [] [] st hle
    rcases hres : walkLoop p polI ((validStates p).length + 2) [] [] st with _ | _ | ⟨pth, r⟩
    · exact Or.inl rfl
    · exact absurd hres hne
    · exact Or.inr ⟨pth, r, rfl⟩
  · exact ⟨TrainResult.mk [(1, .D), (3, .D), (4, .U), (6, .D)]
      [(1, 0), (3, 9/10), (4, 0), (6, 1), (9, 0)] [1, 4, 1] false,
      by decide, rfl, rfl⟩

/-- C7: fully walled-off goal: when every in-bounds 4-neighbour of the goal
is an obstacle and the start differs from the goal, any successful solve
reports `reachable = false`, and the returned path is the walk's partial
trace, beginning at the start cell's index. -/
theorem c7_walled_goal (gs : Int) (st gl : Cell) (obs : List Cell) (res : TrainResult)
    (hwall : ∀ a : Action, 0 ≤ (move gl a).1 → (move gl a).1 < gs →
      0 ≤ (move gl a).2 → (move gl a).2 < gs → move gl a ∈ obs)
    (hne : st ≠ gl) (htr : train gs st gl obs = some res) :
    res.reachable = false ∧ ∃ i, idxMap gs st = some i ∧ res.path.head? = some i := by
  obtain ⟨Vf, pol, qv, hvl, hkf, hex, hti, hwk⟩ := train_inv htr
  have hti' : toIdxAux ⟨gs, st, gl, obs⟩ pol qv (validStates ⟨gs, st, gl, obs⟩) =
      some (res.policy, res.qValues) := hti
  have hpol : ∀ i a, dlookup res.policy i = some a →
      ∃ s ∈ validStates ⟨gs, st, gl, obs⟩, ¬ s = gl ∧ idxMap gs s = some i := by
    intro i a ha
    have hmem : i ∈ dkeys res.policy := (dlookup_isSome_iff _ _).1 (by rw [ha]; rfl)
    exact (toIdxAux_keyShape hti').1 i hmem
  have hreach := walkLoop_not_reach hwall hpol
    ((validStates ⟨gs, st, gl, obs⟩).length + 2) [] [] st hne
  constructor
  · cases hb : res.reachable with
    | false => rfl
    | true =>
      rw [hb] at hwk
      exact absurd hwk (hreach res.path)
  · obtain ⟨ci, rest, hci, hpth⟩ := walkLoop_done_path hwk
    refine ⟨ci, hci, ?_⟩
    rw [hpth]
    rfl

/-- Witness for C7: a 3×3 grid whose goal `(2, 2)` is walled off by
obstacles `(1, 2)` and `(2, 1)`: the solve returns `reachable = false` and
a path starting at the start index `1`. -/
theorem c7_walled_goal_witness :
    (TrainResult.mk [(1, Action.D), (2, Action.D), (3, Action.L), (4, Action.U),
        (5, Action.U), (7, Action.U)]
      [(1, 0), (2, 0), (3, 0), (4, 0), (5, 0), (7, 0), (9, 0)]
      [1, 4, 1] false).reachable = false ∧
    ∃ i, idxMap 3 (0, 0) = some i ∧
      (TrainResult.mk [(1, Action.D), (2, Action.D), (3, Action.L), (4, Action.U),
          (5, Action.U), (7, Action.U)]
        [(1, 0), (2, 0), (3, 0), (4, 0), (5, 0), (7, 0), (9, 0)]
        [1, 4, 1] false).path.head? = some i :=
  c7_walled_goal 3 (0, 0) (2, 2) [(1, 2), (2, 1)]
    (TrainResult.mk [(1, Action.D), (2, Action.D), (3, Action.L), (4, Action.U),
        (5, Action.U), (7, Action.U)]
      [(1, 0), (2, 0), (3, 0), (4, 0), (5, 0), (7, 0), (9, 0)]
      [1, 4, 1] false)
    (by decide) (by decide) (by decide)

/-- C8: determinism / idempotence: the computation ignores the in-scope
pseudo-random generator state entirely (the `random` import is never
called), and carries no state between invocations, so any two solves of the
same input — under any two generator states — return the same result. -/
theorem c8_deterministic (r1 r2 : Nat) (gs : Int) (st gl : Cell) (obs : List Cell) :
    trainWithRandom r1 gs st gl obs = trainWithRandom r2 gs st gl obs ∧
    trainWithRandom r1 gs st gl obs = train gs st gl obs :=
  ⟨rfl, rfl⟩

/-- C9 counterexample: an out-of-bounds goal `(5, 5)` on a 2×2 grid with an
in-bounds start is *not* rejected: `train` returns a normal result, so the
claim that every such input fails is false on the code. -/
theorem c9_invalid_input_counterexample :
    (train 2 (0, 0) (5, 5) []).isSome = true := by decide

/-- C9 (amended): for a non-positive grid size or an out-of-bounds start the
endpoint fails — the walk's first index-map lookup of the start cell raises
`KeyError` (modelled: `train` returns `none`) — while an out-of-bounds goal
alone is not rejected (see the counterexample). -/
theorem c9_rejects_bad_start (gs : Int) (st gl : Cell) (obs : List Cell)
    (hbad : gs ≤ 0 ∨ st.1 < 0 ∨ gs ≤ st.1 ∨ st.2 < 0 ∨ gs ≤ st.2) :
    train gs st gl obs = none := by
  obtain ⟨Vf, pol, qv, polI, qvI, hvl, hkf, hex, hti⟩ := pipeline_some ⟨gs, st, gl, obs⟩
  rw [train_walk_eq hvl hex hti]
  have hidx : idxMap gs st = none := by
    rw [idxMap]
    apply if_neg
    rintro ⟨h1, h2, h3, h4⟩
    rcases hbad with h | h | h | h | h <;> omega
  have hfe : (validStates ⟨gs, st, gl, obs⟩).length + 2 =
      ((validStates ⟨gs, st, gl, obs⟩).length + 1) + 1 := rfl
  rw [hfe, walkLoop]
  dsimp only
  rw [hidx]

/-- Witness for C9 (amended): grid size `0` makes `train` fail. -/
theorem c9_rejects_bad_start_witness : train 0 (0, 0) (0, 0) [] = none :=
  c9_rejects_bad_start 0 (0, 0) (0, 0) [] (Or.inl (by decide))

/-- C10: closure of `step` over the valid states — for every input,
including a goal that is an obstacle or out of bounds (validity is checked
before the goal comparison), stepping from a non-goal valid state lands in a
valid state, so every value-function lookup during value iteration and
policy extraction succeeds and the missing-key error branch is
unreachable. -/
theorem c10_step_closure (gs : Int) (st gl : Cell) (obs : List Cell) :
    (∀ s ∈ validStates ⟨gs, st, gl, obs⟩, ¬ s = gl →
      ∀ a : Action, (step ⟨gs, st, gl, obs⟩ s a).1 ∈ validStates ⟨gs, st, gl, obs⟩) ∧
    ∀ n : Nat, ∃ Vf, viLoop ⟨gs, st, gl, obs⟩ n (V0 ⟨gs, st, gl, obs⟩) = some Vf ∧
      dkeys Vf = validStates ⟨gs, st, gl, obs⟩ ∧
      ∃ pol qv, extract ⟨gs, st, gl, obs⟩ Vf = some (pol, qv) := by
  constructor
  · exact fun s hs hg a => step_fst_mem hs hg a
  · intro n
    obtain ⟨Vf, hvf, hkf⟩ := viLoop_some ⟨gs, st, gl, obs⟩ n (dkeys_V0 _)
    obtain ⟨pol, qv, hex⟩ := extractAux_some hkf fun _ hs => hs
    exact ⟨Vf, hvf, hkf, pol, qv, hex⟩

/-- Witness for C10 on a 2×2 grid whose goal `(0, 1)` coincides with an
obstacle: stepping right from `(0, 0)` bounces back into the valid states
and the full pipeline still succeeds. -/
theorem c10_step_closure_witness :
    (step ⟨2, (0, 0), (0, 1), [(0, 1)]⟩ (0, 0) .R).1 ∈
      validStates ⟨2, (0, 0), (0, 1), [(0, 1)]⟩ ∧
    ∃ Vf, viLoop ⟨2, (0, 0), (0, 1), [(0, 1)]⟩ maxIterations
        (V0 ⟨2, (0, 0), (0, 1), [(0, 1)]⟩) = some Vf ∧
      dkeys Vf = validStates ⟨2, (0, 0), (0, 1), [(0, 1)]⟩ ∧
      ∃ pol qv, extract ⟨2, (0, 0), (0, 1), [(0, 1)]⟩ Vf = some (pol, qv) :=
  ⟨(c10_step_closure 2 (0, 0) (0, 1) [(0, 1)]).1 (0, 0) (by decide) (by decide) .R,
   (c10_step_closure 2 (0, 0) (0, 1) [(0, 1)]).2 maxIterations⟩

end ClaimTheorems

end GridMDP
